import Mathlib

/-!
Shallow embedding of `src/script.js`, a browser DNA mutation comparison tool.
JavaScript strings are modelled as `List Char` (one entry per UTF-16 code
unit; every character appearing here is in the basic multilingual plane or a
single scalar, so code units and scalars coincide for the texts involved).
The embedded components are:

* `parseFasta` (source lines 74-97): FASTA text to records;
* the normalization step of `findMutations` (lines 276-277, 290):
  uppercase then strip non-ATCG, flag length change;
* the mutation-finding scan of `findMutations` (lines 303-318):
  positional diff with highlight markup;
* the illustrative side-effects block of `findMutations` (lines 341-362):
  threshold note plus `KNOWN_MUTATION_IMPACTS` lookups;
* `downloadMutations` (lines 383-399): plain-text export payload.
-/

namespace DnaScript

/-- Whitespace predicate modelling the character class trimmed by the
JavaScript `String.prototype.trim` for the characters that can occur in
this tool's inputs: ASCII space, tab, line feed, carriage return, vertical
tab, form feed, no-break space, and the byte order mark. -/
def isJsWs (c : Char) : Bool :=
  c = ' ' || c = '\t' || c = '\n' || c = '\r' || c = '\x0b' ||
  c = '\x0c' || c = ' ' || c = '﻿'

/-- Model of the JavaScript `line.trim()`: drop whitespace from both ends. -/
def trim (l : List Char) : List Char :=
  ((l.dropWhile isJsWs).reverse.dropWhile isJsWs).reverse

/-- Accumulator for `splitNl`: `cur` holds the current chunk reversed. -/
def splitNlAux : List Char → List Char → List (List Char)
  | [], cur => [cur.reverse]
  | c :: rest, cur =>
      if c = '\n' then cur.reverse :: splitNlAux rest []
      else splitNlAux rest (c :: cur)

/-- Model of the JavaScript `fastaContent.split('\n')` (source line 76). -/
def splitNl (s : List Char) : List (List Char) :=
  splitNlAux s []

/-- Model of the JavaScript `array.join('\n')` (source line 337). -/
def joinNl : List (List Char) → List Char
  | [] => []
  | [l] => l
  | l :: ls => l ++ '\n' :: joinNl ls

/-- A parsed FASTA record, as pushed by `parseFasta` (source line 84):
`header` is the text after the leading `>` of the header line, trimmed;
`sequence` is the trimmed accumulation of the record's sequence lines. -/
structure FastaRecord where
  header : List Char
  sequence : List Char
deriving DecidableEq

/-- Model of the JavaScript `line.startsWith('>')` test (source line 81). -/
def isHeaderLine (l : List Char) : Bool :=
  match l with
  | '>' :: _ => true
  | _ => false

/-- The line loop of `parseFasta` (source lines 80-95), with the loop state
`currentHeader` and `currentSequence` passed explicitly.  On a header line,
a record is pushed only when `currentSequence` is non-empty, then the
accumulator is reset and the header replaced by the text after `>`;
any other line is trimmed and appended to the accumulator; after the last
line a final non-empty accumulation is flushed. -/
def parseFastaLoop : List (List Char) → List Char → List Char → List FastaRecord
  | [], currentHeader, currentSequence =>
      if currentSequence = [] then []
      else [⟨trim currentHeader, trim currentSequence⟩]
  | line :: rest, currentHeader, currentSequence =>
      if isHeaderLine line then
        (if currentSequence = [] then []
         else [⟨trim currentHeader, trim currentSequence⟩])
          ++ parseFastaLoop rest (line.drop 1) []
      else
        parseFastaLoop rest currentHeader (currentSequence ++ trim line)

/-- Model of `parseFasta` (source lines 74-97): split on `'\n'` and run the
line loop with empty initial header and accumulator. -/
def parseFasta (fastaContent : List Char) : List FastaRecord :=
  parseFastaLoop (splitNl fastaContent) [] []

/-- The DNA alphabet test behind the regular expression `[^ATCG]`
(source lines 276-277). -/
def isDnaBase (c : Char) : Bool :=
  c = 'A' || c = 'T' || c = 'C' || c = 'G'

/-- Result of the normalization step: the cleaned sequence and the flag
computed on source line 290 by comparing raw and cleaned lengths. -/
structure NormalizeResult where
  cleaned : List Char
  wasModified : Bool
deriving DecidableEq

/-- Model of the normalization of `findMutations` (source lines 276-277 and
290): `raw.toUpperCase().replace(/[^ATCG]/g, '')`, with `wasModified` the
length comparison of line 290.  `Char.toUpper` models the locale-independent
`toUpperCase` on the ASCII range, which covers the DNA alphabet. -/
def normalize (raw : List Char) : NormalizeResult :=
  let cleaned := (raw.map Char.toUpper).filter isDnaBase
  ⟨cleaned, raw.length != cleaned.length⟩

/-- A positional substitution, as recorded on source line 310 in the string
`Position (i+1): a[i] → b[i]` and re-parsed by the annotator's regular
expression on line 350, which recovers exactly these three fields. -/
structure Mutation where
  position : Nat
  «from» : Char
  «to» : Char
deriving DecidableEq

/-- Result of the mutation-finding scan (source lines 303-318). -/
structure DiffResult where
  mutations : List Mutation
  highlightedDna1 : List Char
  highlightedDna2 : List Char
deriving DecidableEq

/-- The opening highlight markup of source lines 311-312. -/
def spanOpen : List Char := "<span class=\"mutation-highlight\">".toList

/-- The closing highlight markup of source lines 311-312. -/
def spanClose : List Char := "</span>".toList

/-- The index loop of the mutation scan (source lines 307-318), recursing on
both sequences simultaneously with `i` the current 0-based index.  The
caller guarantees equal lengths (checked on source line 295 before the scan
runs), so the truncating behaviour on unequal lengths is never exercised. -/
def diffAux : Nat → List Char → List Char → DiffResult
  | _, [], _ => ⟨[], [], []⟩
  | _, _ :: _, [] => ⟨[], [], []⟩
  | i, x :: xs, y :: ys =>
      let r := diffAux (i + 1) xs ys
      if x ≠ y then
        ⟨⟨i + 1, x, y⟩ :: r.mutations,
         spanOpen ++ x :: (spanClose ++ r.highlightedDna1),
         spanOpen ++ y :: (spanClose ++ r.highlightedDna2)⟩
      else
        ⟨r.mutations, x :: r.highlightedDna1, y :: r.highlightedDna2⟩

/-- The mutation-finding scan of `findMutations` over two cleaned sequences
(source lines 303-318). -/
def findMutationsScan (dna1Cleaned dna2Cleaned : List Char) : DiffResult :=
  diffAux 0 dna1Cleaned dna2Cleaned

/-- Decimal digit characters, as produced by the JavaScript number-to-string
conversion in the template literal on source line 310; the final case is
unreachable for arguments of the form `n % 10`. -/
def jsDigitChar : Nat → Char
  | 0 => '0'
  | 1 => '1'
  | 2 => '2'
  | 3 => '3'
  | 4 => '4'
  | 5 => '5'
  | 6 => '6'
  | 7 => '7'
  | 8 => '8'
  | 9 => '9'
  | _ => '*'

/-- Fuel-driven accumulator loop for decimal rendering; the fuel is an upper
bound on the number of digits, so `natToChars` always supplies enough. -/
def natToCharsAux : Nat → Nat → List Char → List Char
  | 0, _, acc => acc
  | fuel + 1, n, acc =>
      if n = 0 then acc
      else natToCharsAux fuel (n / 10) (jsDigitChar (n % 10) :: acc)

/-- Decimal rendering of a number, modelling the JavaScript template-literal
conversion `${i + 1}` on source line 310. -/
def natToChars (n : Nat) : List Char :=
  if n = 0 then ['0'] else natToCharsAux n n []

/-- The rendered mutation line of source line 310:
`Position (i+1): from → to`. -/
def mutationLine (m : Mutation) : List Char :=
  "Position ".toList ++ natToChars m.position ++ ": ".toList ++
    m.«from» :: (" → ".toList ++ [m.«to»])

/-- One entry of the static `KNOWN_MUTATION_IMPACTS` table (source
lines 6-11). -/
structure KnownImpact where
  position : Nat
  «from» : Char
  «to» : Char
  impact : List Char
deriving DecidableEq

/-- The static table of source lines 6-11. -/
def KNOWN_MUTATION_IMPACTS : List KnownImpact :=
  [⟨50, 'A', 'T',
    "associated with an increased risk of Condition X. (Illustrative)".toList⟩,
   ⟨123, 'C', 'G',
    "might influence the function of Gene Y. (Illustrative)".toList⟩,
   ⟨200, 'T', 'C',
    "potentially linked to altered protein structure. (Illustrative)".toList⟩]

/-- The fixed threshold note pushed on source line 345 when more than ten
mutations were found. -/
def largeCountNote : List Char :=
  "⚠️ A large number of mutations were detected. This could indicate significant genetic variation or potential for altered protein function.".toList

/-- The per-mutation note pushed on source line 358 for a matching
`KNOWN_MUTATION_IMPACTS` entry. -/
def impactNote (m : Mutation) (k : KnownImpact) : List Char :=
  "🧬 Mutation at position ".toList ++ natToChars m.position ++
    " (".toList ++ m.«from» :: ("→".toList ++ m.«to» :: ("): ".toList ++ k.impact))

/-- The match test of source line 357: position, from and to all equal. -/
def knownMatches (k : KnownImpact) (m : Mutation) : Bool :=
  k.position == m.position && k.«from» == m.«from» && k.«to» == m.«to»

/-- The illustrative side-effects block of `findMutations` (source
lines 341-362), operating on the structured mutations that the regular
expression of line 350 recovers from each rendered mutation line: first
the threshold push of lines 344-346, then the nested `forEach` pushes of
lines 349-362, modelled as folds that append to the accumulated list. -/
def annotate (muts : List Mutation) : List (List Char) :=
  let sideEffects := if muts.length > 10 then [largeCountNote] else []
  muts.foldl
    (fun acc m =>
      KNOWN_MUTATION_IMPACTS.foldl
        (fun acc2 k => if knownMatches k m then acc2 ++ [impactNote m k] else acc2)
        acc)
    sideEffects

/-- The downloadable payload assembled by `downloadMutations` (source lines
383-399) from the joined mutation lines passed on line 337; the
`encodeURIComponent` and `decodeURIComponent` round trip is the identity on
the payload, and the call-time date `new Date().toISOString().slice(0, 10)`
is passed in as `dateStr`. -/
structure ExportPayload where
  filename : List Char
  content : List Char
  mimeType : List Char
deriving DecidableEq

/-- Model of the export: content is the rendered mutation lines joined by
newline (source lines 310 and 337), filename is date-stamped (line 387),
and the mime type is that of the `Blob` on line 389. -/
def exportMutations (muts : List Mutation) (dateStr : List Char) : ExportPayload :=
  ⟨"dna_mutations_".toList ++ dateStr ++ ".txt".toList,
   joinNl (muts.map mutationLine),
   "text/plain;charset=utf-8".toList⟩

/-- Left-to-right removal of every occurrence of a pattern from a string,
used to state that stripping the highlight markup recovers the input. -/
def removeAll : List Char → List Char → List Char
  | [], s => s
  | _ :: _, [] => []
  | p :: ps, c :: rest =>
      if (p :: ps).isPrefixOf (c :: rest) then
        removeAll (p :: ps) ((c :: rest).drop (p :: ps).length)
      else c :: removeAll (p :: ps) rest
termination_by _ s => s.length
decreasing_by
  all_goals simp_all [List.length_drop]
  omega

/-- Trimmed concatenation of a list of lines, the value accumulated by
`parseFasta` over consecutive non-header lines. -/
def concatTrims (ls : List (List Char)) : List Char :=
  (ls.map trim).flatten

/-- The flat line list of a list of FASTA blocks, each block being a header
line paired with its sequence lines. -/
def blockLines (bs : List (List Char × List (List Char))) : List (List Char) :=
  (bs.map fun b => b.1 :: b.2).flatten

/-- A string neither starts nor ends with whitespace. -/
def NoWsEnds (l : List Char) : Prop :=
  (∀ c, l.head? = some c → isJsWs c = false) ∧
  (∀ c, l.getLast? = some c → isJsWs c = false)

/-- The mutation emitted at one scan index: `some` exactly when the two
characters differ, carrying the 1-based position `index + 1` and the two
characters, as recorded on source lines 308-310. -/
def diffStep (q : Nat × Char × Char) : Option Mutation :=
  if q.2.1 ≠ q.2.2 then some ⟨q.1 + 1, q.2.1, q.2.2⟩ else none

/-- The block contributed by one scan position to a highlighted rendering:
the character `c` wrapped in the highlight markup exactly when the pair of
characters at that position differs (source lines 311-316). -/
def highlightBlock (p : Char × Char) (c : Char) : List Char :=
  if p.1 ≠ p.2 then spanOpen ++ c :: spanClose else [c]

/-- The notes one mutation contributes: one per matching entry of the
static table, in table order (source lines 356-360). -/
def mutationNotes (m : Mutation) : List (List Char) :=
  KNOWN_MUTATION_IMPACTS.filterMap
    (fun k => if knownMatches k m then some (impactNote m k) else none)

example : normalize "atcgXX".toList = ⟨"ATCG".toList, true⟩ := by decide

example :
    (findMutationsScan "ATCG".toList "ATTG".toList).mutations =
      [⟨3, 'C', 'T'⟩] := by decide

example :
    parseFasta ">h1\nAT\nCG\n>h2\nGG".toList =
      [⟨"h1".toList, "ATCG".toList⟩, ⟨"h2".toList, "GG".toList⟩] := by decide

example : parseFasta "ATCG".toList = [⟨[], "ATCG".toList⟩] := by decide

example :
    annotate [⟨50, 'A', 'T'⟩] =
      [impactNote ⟨50, 'A', 'T'⟩ ⟨50, 'A', 'T',
        "associated with an increased risk of Condition X. (Illustrative)".toList⟩] := by
  decide

theorem noWsEnds_nil : NoWsEnds [] := by
  constructor <;> intro c h <;> simp_all

theorem dropWhile_head_not (l : List Char) (c : Char)
    (h : (l.dropWhile isJsWs).head? = some c) : isJsWs c = false := by
  induction l with
  | nil => simp at h
  | cons x xs ih =>
      by_cases hx : isJsWs x
      · rw [List.dropWhile_cons_of_pos hx] at h
        exact ih h
      · rw [List.dropWhile_cons_of_neg hx] at h
        simp at h
        subst h
        simpa using hx

theorem dropWhile_eq_self (l : List Char)
    (h : ∀ c, l.head? = some c → isJsWs c = false) :
    l.dropWhile isJsWs = l := by
  cases l with
  | nil => rfl
  | cons x xs =>
      have hx : isJsWs x = false := h x (by simp)
      have hx' : ¬ (isJsWs x = true) := by simp [hx]
      rw [List.dropWhile_cons_of_neg hx']

theorem dropWhile_getLast? (l : List Char)
    (h : l.dropWhile isJsWs ≠ []) :
    (l.dropWhile isJsWs).getLast? = l.getLast? := by
  induction l with
  | nil => simp at h
  | cons x xs ih =>
      by_cases hx : isJsWs x
      · rw [List.dropWhile_cons_of_pos hx] at h ⊢
        have hxs : xs ≠ [] := by
          rintro rfl
          simp at h
        cases xs with
        | nil => exact absurd rfl hxs
        | cons y ys => rw [List.getLast?_cons_cons]; exact ih h
      · rw [List.dropWhile_cons_of_neg hx]

theorem noWsEnds_trim (l : List Char) : NoWsEnds (trim l) := by
  constructor
  · intro c h
    rw [trim, List.head?_reverse] at h
    by_cases hB : (l.dropWhile isJsWs).reverse.dropWhile isJsWs = []
    · rw [hB] at h
      simp at h
    · rw [dropWhile_getLast? _ hB, List.getLast?_reverse] at h
      exact dropWhile_head_not _ _ h
  · intro c h
    rw [trim, List.getLast?_reverse] at h
    exact dropWhile_head_not _ _ h

theorem trim_eq_self (l : List Char) (h : NoWsEnds l) : trim l = l := by
  rw [trim, dropWhile_eq_self l h.1, dropWhile_eq_self _ (by
    intro c hc
    rw [List.head?_reverse] at hc
    exact h.2 c hc), List.reverse_reverse]

theorem noWsEnds_append_trim (s l : List Char) (h : NoWsEnds s) :
    NoWsEnds (s ++ trim l) := by
  constructor
  · intro c hc
    cases s with
    | nil => exact (noWsEnds_trim l).1 c (by simpa using hc)
    | cons x xs =>
        simp at hc
        exact h.1 c (by simp [hc])
  · intro c hc
    by_cases ht : trim l = []
    · rw [ht, List.append_nil] at hc
      exact h.2 c hc
    · rw [List.getLast?_append_of_ne_nil _ ht] at hc
      exact (noWsEnds_trim l).2 c hc

theorem noWsEnds_concatTrims (s : List Char) (ls : List (List Char))
    (h : NoWsEnds s) : NoWsEnds (s ++ concatTrims ls) := by
  induction ls generalizing s with
  | nil => simpa [concatTrims] using h
  | cons l ls ih =>
      have := ih (s ++ trim l) (noWsEnds_append_trim s l h)
      simpa [concatTrims, List.append_assoc] using this

theorem splitNlAux_no_nl (l : List Char) (cur : List Char)
    (h : '\n' ∉ l) : splitNlAux l cur = [cur.reverse ++ l] := by
  induction l generalizing cur with
  | nil => simp [splitNlAux]
  | cons c rest ih =>
      have hc : c ≠ '\n' := fun hc => h (by simp [hc])
      rw [splitNlAux, if_neg hc, ih _ (fun hm => h (by simp [hm]))]
      simp

theorem splitNlAux_append_nl (l rest cur : List Char) (h : '\n' ∉ l) :
    splitNlAux (l ++ '\n' :: rest) cur =
      (cur.reverse ++ l) :: splitNlAux rest [] := by
  induction l generalizing cur with
  | nil => simp [splitNlAux]
  | cons c t ih =>
      have hc : c ≠ '\n' := fun hc => h (by simp [hc])
      rw [List.cons_append, splitNlAux, if_neg hc,
        ih _ (fun hm => h (by simp [hm]))]
      simp

theorem splitNl_joinNl (ls : List (List Char)) (hne : ls ≠ [])
    (h : ∀ l ∈ ls, '\n' ∉ l) : splitNl (joinNl ls) = ls := by
  induction ls with
  | nil => exact absurd rfl hne
  | cons l ls ih =>
      cases ls with
      | nil =>
          rw [joinNl, splitNl, splitNlAux_no_nl _ _ (h l (by simp))]
          simp
      | cons l' ls' =>
          have hjoin : joinNl (l :: l' :: ls') = l ++ '\n' :: joinNl (l' :: ls') := rfl
          rw [hjoin, splitNl, splitNlAux_append_nl _ _ _ (h l (by simp))]
          have hrec := ih (List.cons_ne_nil l' ls') (fun x hx => h x (List.mem_cons_of_mem l hx))
          rw [splitNl] at hrec
          rw [hrec]
          simp

theorem parseFastaLoop_no_header (ls rest : List (List Char))
    (h s : List Char) (hh : ∀ l ∈ ls, isHeaderLine l = false) :
    parseFastaLoop (ls ++ rest) h s = parseFastaLoop rest h (s ++ concatTrims ls) := by
  induction ls generalizing s with
  | nil => simp [concatTrims]
  | cons l ls ih =>
      rw [List.cons_append, parseFastaLoop, if_neg (by simp [hh l (by simp)]),
        ih _ (fun x hx => hh x (by simp [hx]))]
      simp [concatTrims, List.append_assoc]

theorem parseFastaLoop_seq_ne_nil (ls : List (List Char)) (h s : List Char)
    (hs : NoWsEnds s) (r : FastaRecord) (hr : r ∈ parseFastaLoop ls h s) :
    r.sequence ≠ [] := by
  induction ls generalizing h s with
  | nil =>
      rw [parseFastaLoop] at hr
      by_cases he : s = []
      · simp [he] at hr
      · rw [if_neg he] at hr
        simp at hr
        subst hr
        simpa [trim_eq_self s hs] using he
  | cons line rest ih =>
      rw [parseFastaLoop] at hr
      by_cases hl : isHeaderLine line
      · rw [if_pos hl] at hr
        rcases List.mem_append.1 hr with hr | hr
        · by_cases he : s = []
          · simp [he] at hr
          · rw [if_neg he] at hr
            simp at hr
            subst hr
            simpa [trim_eq_self s hs] using he
        · exact ih _ _ noWsEnds_nil hr
      · rw [if_neg hl] at hr
        exact ih _ _ (noWsEnds_append_trim s line hs) hr

theorem concatTrims_ne_nil {ls : List (List Char)} {l : List Char}
    (hl : l ∈ ls) (hne : trim l ≠ []) : concatTrims ls ≠ [] := by
  intro h
  rw [concatTrims, List.flatten_eq_nil_iff] at h
  exact hne (h _ (List.mem_map_of_mem trim hl))

theorem parseFastaLoop_blocks (bs : List (List Char × List (List Char)))
    (hwf : ∀ b ∈ bs, isHeaderLine b.1 = true ∧
      (∀ l ∈ b.2, isHeaderLine l = false) ∧ ∃ l ∈ b.2, trim l ≠ []) :
    ∀ h s, s ≠ [] → NoWsEnds s →
      parseFastaLoop (blockLines bs) h s =
        ⟨trim h, s⟩ :: bs.map (fun b => ⟨trim (b.1.drop 1), concatTrims b.2⟩) := by
  induction bs with
  | nil =>
      intro h s hs hns
      have hb : blockLines ([] : List (List Char × List (List Char))) = [] := rfl
      rw [hb, parseFastaLoop, if_neg hs, trim_eq_self s hns]
      simp
  | cons b bs ih =>
      intro h s hs hns
      obtain ⟨hb1, hb2, l, hl, hlt⟩ := hwf b (by simp)
      have hblock : blockLines (b :: bs) = b.1 :: (b.2 ++ blockLines bs) := by
        simp [blockLines]
      rw [hblock, parseFastaLoop, if_pos hb1, if_neg hs,
        parseFastaLoop_no_header _ _ _ _ hb2, List.nil_append]
      have hcne : concatTrims b.2 ≠ [] := concatTrims_ne_nil hl hlt
      have hcns : NoWsEnds (concatTrims b.2) := by
        simpa using noWsEnds_concatTrims [] b.2 noWsEnds_nil
      rw [ih (fun x hx => hwf x (by simp [hx])) _ _ hcne hcns,
        trim_eq_self s hns]
      simp

theorem parseFasta_blocks (bs : List (List Char × List (List Char)))
    (hwf : ∀ b ∈ bs, isHeaderLine b.1 = true ∧ '\n' ∉ b.1 ∧
      (∀ l ∈ b.2, isHeaderLine l = false ∧ '\n' ∉ l) ∧ ∃ l ∈ b.2, trim l ≠ []) :
    parseFasta (joinNl (blockLines bs)) =
      bs.map (fun b => ⟨trim (b.1.drop 1), concatTrims b.2⟩) := by
  cases bs with
  | nil => decide
  | cons b bs =>
      obtain ⟨hb1, hb1n, hb2, l, hl, hlt⟩ := hwf b (by simp)
      have hblock : blockLines (b :: bs) = b.1 :: (b.2 ++ blockLines bs) := by
        simp [blockLines]
      have hlines : ∀ x ∈ blockLines (b :: bs), '\n' ∉ x := by
        intro x hx
        rw [blockLines, List.mem_flatten] at hx
        obtain ⟨bl, hbl, hxbl⟩ := hx
        rw [List.mem_map] at hbl
        obtain ⟨b', hb', rfl⟩ := hbl
        obtain ⟨_, hn1, hn2, _⟩ := hwf b' hb'
        rcases List.mem_cons.1 hxbl with rfl | hxs
        · exact hn1
        · exact (hn2 x hxs).2
      rw [parseFasta, splitNl_joinNl _ (by simp [hblock]) hlines, hblock,
        parseFastaLoop, if_pos hb1, if_pos rfl, List.nil_append,
        parseFastaLoop_no_header _ _ _ _ (fun x hx => (hb2 x hx).1),
        List.nil_append]
      cases bs with
      | nil =>
          have hbl : blockLines ([] : List (List Char × List (List Char))) = [] := rfl
          rw [hbl, parseFastaLoop, if_neg (concatTrims_ne_nil hl hlt),
            trim_eq_self (concatTrims b.2)
              (by simpa using noWsEnds_concatTrims [] b.2 noWsEnds_nil)]
          simp
      | cons b' bs' =>
          rw [parseFastaLoop_blocks _
            (fun x hx => by
              obtain ⟨h1, _, h2, h3⟩ := hwf x (by simp [hx])
              exact ⟨h1, fun y hy => (h2 y hy).1, h3⟩) _ _
            (concatTrims_ne_nil hl hlt)
            (by simpa using noWsEnds_concatTrims [] b.2 noWsEnds_nil)]
          simp

theorem diffAux_mutations (a : List Char) :
    ∀ (b : List Char) (i : Nat), a.length = b.length →
      (diffAux i a b).mutations =
        ((a.zip b).enumFrom i).filterMap diffStep := by
  induction a with
  | nil => intro b i h; cases b with
      | nil => rfl
      | cons y ys => simp at h
  | cons x xs ih =>
      intro b i h
      cases b with
      | nil => simp at h
      | cons y ys =>
          have hlen : xs.length = ys.length := by simpa using h
          by_cases hxy : x = y
          · rw [show (x :: xs).zip (y :: ys) = (x, y) :: xs.zip ys from rfl,
              List.enumFrom_cons]
            rw [diffAux]
            simp only [hxy, ne_eq, not_true_eq_false, if_false, ite_false,
              List.filterMap_cons, diffStep]
            simp [hxy, ih ys (i + 1) hlen]
          · rw [show (x :: xs).zip (y :: ys) = (x, y) :: xs.zip ys from rfl,
              List.enumFrom_cons]
            rw [diffAux]
            simp only [ne_eq, hxy, not_false_eq_true, if_true, List.filterMap_cons,
              diffStep]
            simp [hxy, ih ys (i + 1) hlen]

theorem diffAux_pos_gt (a : List Char) :
    ∀ (b : List Char) (i : Nat) (m : Mutation),
      m ∈ (diffAux i a b).mutations → i < m.position := by
  induction a with
  | nil => intro b i m hm; cases b <;> simp [diffAux] at hm
  | cons x xs ih =>
      intro b i m hm
      cases b with
      | nil => simp [diffAux] at hm
      | cons y ys =>
          rw [diffAux] at hm
          by_cases hxy : x = y
          · simp only [hxy, ne_eq, not_true_eq_false, if_false, ite_false] at hm
            exact Nat.lt_of_succ_lt (ih ys (i + 1) m (by simpa [hxy] using hm))
          · simp only [ne_eq, hxy, not_false_eq_true, if_true] at hm
            rcases List.mem_cons.1 hm with rfl | hm
            · simp
            · exact Nat.lt_of_succ_lt (ih ys (i + 1) m hm)

theorem diffAux_sorted (a : List Char) :
    ∀ (b : List Char) (i : Nat),
      (diffAux i a b).mutations.Pairwise (fun m₁ m₂ => m₁.position < m₂.position) := by
  induction a with
  | nil => intro b i; cases b <;> simp [diffAux]
  | cons x xs ih =>
      intro b i
      cases b with
      | nil => simp [diffAux]
      | cons y ys =>
          rw [diffAux]
          by_cases hxy : x = y
          · simpa [hxy] using ih ys (i + 1)
          · simp only [ne_eq, hxy, not_false_eq_true, if_true]
            refine List.Pairwise.cons ?_ (ih ys (i + 1))
            intro m hm
            exact diffAux_pos_gt xs ys (i + 1) m hm

theorem diffAux_self (a : List Char) : ∀ i, (diffAux i a a).mutations = [] := by
  induction a with
  | nil => intro i; rfl
  | cons x xs ih =>
      intro i
      rw [diffAux]
      simp [ih (i + 1)]

theorem diffAux_swap (a : List Char) :
    ∀ (b : List Char) (i : Nat), a.length = b.length →
      (diffAux i b a).mutations =
        (diffAux i a b).mutations.map (fun m => ⟨m.position, m.«to», m.«from»⟩) := by
  induction a with
  | nil => intro b i h; cases b with
      | nil => rfl
      | cons y ys => simp at h
  | cons x xs ih =>
      intro b i h
      cases b with
      | nil => simp at h
      | cons y ys =>
          have hlen : xs.length = ys.length := by simpa using h
          rw [diffAux, diffAux]
          by_cases hxy : x = y
          · simp [hxy, ih ys (i + 1) hlen]
          · have hyx : ¬ y = x := fun hc => hxy hc.symm
            simp [hxy, hyx, ih ys (i + 1) hlen]

theorem mem_enumFrom_fst (l : List (Char × Char)) :
    ∀ (i : Nat) (q : Nat × Char × Char), q ∈ l.enumFrom i → i ≤ q.1 := by
  induction l with
  | nil => simp
  | cons p l ih =>
      intro i q hq
      rw [List.enumFrom_cons] at hq
      rcases List.mem_cons.1 hq with rfl | hq
      · simp
      · exact Nat.le_of_succ_le (ih (i + 1) q hq)

theorem mem_filterMap_diffStep_gt (l : List (Char × Char)) :
    ∀ (i : Nat) (m : Mutation), m ∈ (l.enumFrom i).filterMap diffStep →
      i < m.position := by
  intro i m hm
  rw [List.mem_filterMap] at hm
  obtain ⟨q, hq, hstep⟩ := hm
  have hle : i ≤ q.1 := mem_enumFrom_fst l i q hq
  rw [diffStep] at hstep
  by_cases h : q.2.1 = q.2.2
  · simp [h] at hstep
  · simp only [ne_eq, h, not_false_eq_true, if_true, Option.some.injEq] at hstep
    subst hstep
    exact Nat.lt_of_le_of_lt hle (Nat.lt_succ_self _)

theorem mem_positions_iff (l : List (Char × Char)) :
    ∀ (i j : Nat) (x y : Char), (j, (x, y)) ∈ l.enumFrom i →
      ((j + 1) ∈ ((l.enumFrom i).filterMap diffStep).map Mutation.position ↔
        x ≠ y) := by
  induction l with
  | nil => simp
  | cons p l ih =>
      intro i j x y hm
      rw [List.enumFrom_cons] at hm ⊢
      rcases List.mem_cons.1 hm with heq | hm
      · have hj : j = i := congrArg Prod.fst heq
        have hp : p = (x, y) := (congrArg Prod.snd heq).symm
        subst hj
        subst hp
        rw [List.filterMap_cons]
        by_cases hxy : x = y
        · rw [show diffStep (j, (x, y)) = none by simp [diffStep, hxy]]
          constructor
          · intro hmem
            rw [List.mem_map] at hmem
            obtain ⟨m, hmm, hpos⟩ := hmem
            have := mem_filterMap_diffStep_gt l (j + 1) m hmm
            omega
          · intro h
            exact absurd hxy h
        · rw [show diffStep (j, (x, y)) = some ⟨j + 1, x, y⟩ by
            simp [diffStep, hxy]]
          rw [List.map_cons, List.mem_cons]
          constructor
          · intro _
            exact hxy
          · intro _
            exact Or.inl rfl
      · have hj : i + 1 ≤ j := mem_enumFrom_fst l (i + 1) (j, (x, y)) hm
        rw [List.filterMap_cons]
        have htail := ih (i + 1) j x y hm
        cases hstep : diffStep (i, p) with
        | none => simpa using htail
        | some m =>
            have hmpos : m.position = i + 1 := by
              rw [diffStep] at hstep
              by_cases h : p.1 = p.2
              · simp [h] at hstep
              · simp only [ne_eq, h, not_false_eq_true, if_true,
                  Option.some.injEq] at hstep
                subst hstep
                rfl
            rw [List.map_cons, List.mem_cons]
            constructor
            · rintro (hhead | htl)
              · omega
              · exact htail.1 htl
            · intro h
              exact Or.inr (htail.2 h)

theorem diffAux_highlighted1 (a : List Char) :
    ∀ (b : List Char) (i : Nat), a.length = b.length →
      (diffAux i a b).highlightedDna1 =
        ((a.zip b).map fun p => highlightBlock p p.1).flatten := by
  induction a with
  | nil => intro b i h; cases b with
      | nil => rfl
      | cons y ys => simp at h
  | cons x xs ih =>
      intro b i h
      cases b with
      | nil => simp at h
      | cons y ys =>
          have hlen : xs.length = ys.length := by simpa using h
          rw [diffAux]
          by_cases hxy : x = y
          · simp [hxy, highlightBlock, ih ys (i + 1) hlen]
          · simp [hxy, highlightBlock, ih ys (i + 1) hlen]

theorem diffAux_highlighted2 (a : List Char) :
    ∀ (b : List Char) (i : Nat), a.length = b.length →
      (diffAux i a b).highlightedDna2 =
        ((a.zip b).map fun p => highlightBlock p p.2).flatten := by
  induction a with
  | nil => intro b i h; cases b with
      | nil => rfl
      | cons y ys => simp at h
  | cons x xs ih =>
      intro b i h
      cases b with
      | nil => simp at h
      | cons y ys =>
          have hlen : xs.length = ys.length := by simpa using h
          rw [diffAux]
          by_cases hxy : x = y
          · simp [hxy, highlightBlock, ih ys (i + 1) hlen]
          · simp [hxy, highlightBlock, ih ys (i + 1) hlen]

theorem removeAll_nil (p : List Char) : removeAll p [] = [] := by
  cases p <;> simp [removeAll]

theorem removeAll_prefix (p s : List Char) (hp : p ≠ []) :
    removeAll p (p ++ s) = removeAll p s := by
  cases p with
  | nil => exact absurd rfl hp
  | cons c cs =>
      rw [List.cons_append, removeAll,
        if_pos (List.isPrefixOf_iff_prefix.2
          (by rw [← List.cons_append]; exact List.prefix_append _ s))]
      congr 1
      rw [← List.cons_append, List.drop_left]

theorem removeAll_cons_ne (p : List Char) (hp : p.head? = some '<')
    (c : Char) (hc : c ≠ '<') (s : List Char) :
    removeAll p (c :: s) = c :: removeAll p s := by
  cases p with
  | nil => simp at hp
  | cons d ds =>
      have hd : d = '<' := by simpa using hp
      subst hd
      rw [removeAll, if_neg]
      intro hpre
      have := List.isPrefixOf_iff_prefix.1 hpre
      obtain ⟨t, ht⟩ := this
      rw [List.cons_append] at ht
      exact hc (by injection ht with h1 _; exact h1.symm)

theorem removeAll_spanOpen_spanClose (s : List Char) :
    removeAll spanOpen (spanClose ++ s) = spanClose ++ removeAll spanOpen s := by
  show removeAll spanOpen ('<' :: '/' :: 's' :: 'p' :: 'a' :: 'n' :: '>' :: s) =
    '<' :: '/' :: 's' :: 'p' :: 'a' :: 'n' :: '>' :: removeAll spanOpen s
  have h1 : removeAll spanOpen ('<' :: '/' :: 's' :: 'p' :: 'a' :: 'n' :: '>' :: s) =
      '<' :: removeAll spanOpen ('/' :: 's' :: 'p' :: 'a' :: 'n' :: '>' :: s) := by
    have hso : spanOpen = '<' :: 's' :: "pan class=\"mutation-highlight\">".toList := rfl
    rw [hso, removeAll, if_neg]
    intro hpre
    simp [List.isPrefixOf] at hpre
  rw [h1, removeAll_cons_ne spanOpen rfl '/' (by decide),
    removeAll_cons_ne spanOpen rfl 's' (by decide),
    removeAll_cons_ne spanOpen rfl 'p' (by decide),
    removeAll_cons_ne spanOpen rfl 'a' (by decide),
    removeAll_cons_ne spanOpen rfl 'n' (by decide),
    removeAll_cons_ne spanOpen rfl '>' (by decide)]

theorem removeAll_spanOpen_flatten (f : Char × Char → Char)
    (ab : List (Char × Char)) (h : ∀ p ∈ ab, f p ≠ '<') :
    removeAll spanOpen ((ab.map fun p => highlightBlock p (f p)).flatten) =
      ((ab.map fun p => if p.1 ≠ p.2 then f p :: spanClose else [f p])).flatten := by
  induction ab with
  | nil => simpa using removeAll_nil spanOpen
  | cons p ab ih =>
      have hih := ih (fun q hq => h q (by simp [hq]))
      rw [List.map_cons, List.flatten_cons, List.map_cons, List.flatten_cons]
      by_cases hxy : p.1 = p.2
      · rw [show highlightBlock p (f p) = [f p] from by simp [highlightBlock, hxy],
          show (if p.1 ≠ p.2 then f p :: spanClose else [f p]) = [f p] from by
            simp [hxy],
          List.singleton_append, List.singleton_append,
          removeAll_cons_ne spanOpen rfl (f p) (h p (by simp)), hih]
      · rw [show highlightBlock p (f p) = spanOpen ++ f p :: spanClose from by
            simp [highlightBlock, hxy],
          show (if p.1 ≠ p.2 then f p :: spanClose else [f p]) = f p :: spanClose from by
            simp [hxy],
          List.append_assoc, removeAll_prefix spanOpen _ (by decide),
          List.cons_append,
          removeAll_cons_ne spanOpen rfl (f p) (h p (by simp)),
          removeAll_spanOpen_spanClose, hih, List.cons_append]

theorem removeAll_spanClose_flatten (f : Char × Char → Char)
    (ab : List (Char × Char)) (h : ∀ p ∈ ab, f p ≠ '<') :
    removeAll spanClose
        (((ab.map fun p => if p.1 ≠ p.2 then f p :: spanClose else [f p])).flatten) =
      ab.map f := by
  induction ab with
  | nil => simpa using removeAll_nil spanClose
  | cons p ab ih =>
      have hih := ih (fun q hq => h q (by simp [hq]))
      rw [List.map_cons, List.flatten_cons, List.map_cons]
      by_cases hxy : p.1 = p.2
      · rw [show (if p.1 ≠ p.2 then f p :: spanClose else [f p]) = [f p] from by
            simp [hxy],
          List.singleton_append,
          removeAll_cons_ne spanClose rfl (f p) (h p (by simp)), hih]
      · rw [show (if p.1 ≠ p.2 then f p :: spanClose else [f p]) = f p :: spanClose from by
            simp [hxy],
          List.cons_append,
          removeAll_cons_ne spanClose rfl (f p) (h p (by simp)),
          removeAll_prefix spanClose _ (by decide), hih]

theorem foldl_known_append (m : Mutation) (ks : List KnownImpact) :
    ∀ acc, ks.foldl
        (fun acc2 k => if knownMatches k m then acc2 ++ [impactNote m k] else acc2)
        acc =
      acc ++ ks.filterMap
        (fun k => if knownMatches k m then some (impactNote m k) else none) := by
  induction ks with
  | nil => intro acc; simp
  | cons k ks ih =>
      intro acc
      rw [List.foldl_cons, List.filterMap_cons]
      by_cases hk : knownMatches k m = true
      · rw [if_pos hk, if_pos hk, ih]
        simp
      · rw [if_neg hk, if_neg hk, ih]

theorem annotate_eq (muts : List Mutation) :
    annotate muts = (if muts.length > 10 then [largeCountNote] else []) ++
      (muts.map mutationNotes).flatten := by
  simp only [annotate]
  generalize (if muts.length > 10 then [largeCountNote] else []) = init
  induction muts generalizing init with
  | nil => simp
  | cons m ms ih =>
      rw [List.foldl_cons, foldl_known_append m _ init, List.map_cons,
        List.flatten_cons, ih]
      rw [mutationNotes, List.append_assoc]

theorem impactNote_head (m : Mutation) (k : KnownImpact) :
    (impactNote m k).head? = some '🧬' := rfl

theorem largeCountNote_head : largeCountNote.head? = some '⚠' := rfl

theorem impactNote_ne_largeCountNote (m : Mutation) (k : KnownImpact) :
    impactNote m k ≠ largeCountNote := by
  intro h
  have h2 : some '🧬' = some '⚠' := by
    rw [← impactNote_head m k, h, largeCountNote_head]
  simp at h2

theorem count_largeCountNote (muts : List Mutation) :
    (annotate muts).count largeCountNote = if muts.length > 10 then 1 else 0 := by
  rw [annotate_eq, List.count_append]
  have h0 : ((muts.map mutationNotes).flatten).count largeCountNote = 0 := by
    rw [List.count_eq_zero]
    intro hmem
    rw [List.mem_flatten] at hmem
    obtain ⟨l, hl, hx⟩ := hmem
    rw [List.mem_map] at hl
    obtain ⟨m, _, rfl⟩ := hl
    rw [mutationNotes, List.mem_filterMap] at hx
    obtain ⟨k, _, hik⟩ := hx
    by_cases hmatch : knownMatches k m = true
    · rw [if_pos hmatch] at hik
      exact impactNote_ne_largeCountNote m k (by injection hik)
    · rw [if_neg hmatch] at hik
      exact Option.noConfusion hik
  rw [h0]
  by_cases hlen : muts.length > 10
  · rw [if_pos hlen, if_pos hlen]
    simp
  · rw [if_neg hlen, if_neg hlen]
    simp

theorem jsDigitChar_ne_nl : ∀ d, jsDigitChar d ≠ '\n' := by
  intro d
  match d with
  | 0 => decide
  | 1 => decide
  | 2 => decide
  | 3 => decide
  | 4 => decide
  | 5 => decide
  | 6 => decide
  | 7 => decide
  | 8 => decide
  | 9 => decide
  | n + 10 => exact (by decide : ('*' : Char) ≠ '\n')

theorem natToCharsAux_ne_nl :
    ∀ fuel n acc, (∀ c ∈ acc, c ≠ '\n') →
      ∀ c ∈ natToCharsAux fuel n acc, c ≠ '\n' := by
  intro fuel
  induction fuel with
  | zero => intro n acc hacc c hc; exact hacc c hc
  | succ fuel ih =>
      intro n acc hacc c hc
      rw [natToCharsAux] at hc
      by_cases hn : n = 0
      · rw [if_pos hn] at hc
        exact hacc c hc
      · rw [if_neg hn] at hc
        refine ih (n / 10) _ ?_ c hc
        intro c' hc'
        rcases List.mem_cons.1 hc' with rfl | hc'
        · exact jsDigitChar_ne_nl _
        · exact hacc c' hc'

theorem natToChars_ne_nl (n : Nat) : ∀ c ∈ natToChars n, c ≠ '\n' := by
  intro c hc
  rw [natToChars] at hc
  by_cases hn : n = 0
  · rw [if_pos hn] at hc
    simp at hc
    subst hc
    decide
  · rw [if_neg hn] at hc
    exact natToCharsAux_ne_nl n n [] (by simp) c hc

theorem mutationLine_no_nl (m : Mutation) (hf : m.«from» ≠ '\n')
    (ht : m.«to» ≠ '\n') : '\n' ∉ mutationLine m := by
  rw [mutationLine]
  intro hmem
  simp only [List.mem_append, List.mem_cons, List.mem_singleton] at hmem
  rcases hmem with ((hA | hB) | hC) | hf' | hD | ht' | habs
  · exact absurd hA (by decide)
  · exact natToChars_ne_nl m.position '\n' hB rfl
  · exact absurd hC (by decide)
  · exact hf hf'.symm
  · exact absurd hD (by decide)
  · exact ht ht'.symm
  · simp at habs

theorem isDnaBase_toUpper_eq (c : Char) (h : isDnaBase c = true) :
    c.toUpper = c := by
  rw [isDnaBase] at h
  simp only [Bool.or_eq_true, decide_eq_true_eq] at h
  rcases h with ((rfl | rfl) | rfl) | rfl <;> decide

theorem isDnaBase_ne_lt (c : Char) (h : isDnaBase c = true) : c ≠ '<' := by
  rw [isDnaBase] at h
  simp only [Bool.or_eq_true, decide_eq_true_eq] at h
  rcases h with ((rfl | rfl) | rfl) | rfl <;> decide

/-- C1: over equal-length cleaned strings the scan emits, at each 0-based
index where the characters differ, exactly one mutation with position
`i + 1`, `from` the first string's character and `to` the second string's
character; indices where they agree contribute nothing; positions are
strictly ascending; both characters of a differing index are wrapped in the
highlight markup in the rendered strings; and
`diff "ATCG" "ATTG"` yields exactly the mutation at position 3 from C to T. -/
theorem claim1_diff_scan (a b : List Char) (hlen : a.length = b.length) :
    (findMutationsScan a b).mutations = ((a.zip b).enum).filterMap diffStep ∧
    (findMutationsScan a b).mutations.Pairwise
      (fun m₁ m₂ => m₁.position < m₂.position) ∧
    (findMutationsScan a b).highlightedDna1 =
      ((a.zip b).map fun p => highlightBlock p p.1).flatten ∧
    (findMutationsScan a b).highlightedDna2 =
      ((a.zip b).map fun p => highlightBlock p p.2).flatten ∧
    (findMutationsScan "ATCG".toList "ATTG".toList).mutations =
      [⟨3, 'C', 'T'⟩] :=
  ⟨diffAux_mutations a b 0 hlen, diffAux_sorted a b 0,
    diffAux_highlighted1 a b 0 hlen, diffAux_highlighted2 a b 0 hlen,
    by decide⟩

/-- C1 witness: the characterization instantiated at the concrete pair
`"AT"`, `"AA"`. -/
theorem claim1_diff_scan_witness :
    (findMutationsScan "AT".toList "AA".toList).mutations =
      (("AT".toList.zip "AA".toList).enum).filterMap diffStep :=
  (claim1_diff_scan "AT".toList "AA".toList (by decide)).1

/-- C2 counterexample: the input `"ATCG"` contains no line beginning with
`>`, yet parsing it returns one record (with empty header) rather than zero
records, refuting the claim's universal part. -/
theorem claim2_counterexample :
    (∀ l ∈ splitNl "ATCG".toList, isHeaderLine l = false) ∧
    parseFasta "ATCG".toList ≠ [] ∧
    parseFasta "ATCG".toList = [⟨[], "ATCG".toList⟩] := by
  decide

/-- C2 (amended): for input with no line beginning with `>`, parse returns
zero records exactly when every line trims to the empty string, and a
headerless input with non-whitespace content yields exactly one record,
with empty header and the concatenated trimmed lines as sequence; in
particular parse of the empty string returns the empty list. -/
theorem claim2_no_header_amended (t : List Char)
    (hnh : ∀ l ∈ splitNl t, isHeaderLine l = false) :
    (parseFasta t = [] ↔ ∀ l ∈ splitNl t, trim l = []) ∧
    ((¬ ∀ l ∈ splitNl t, trim l = []) →
      parseFasta t = [⟨[], concatTrims (splitNl t)⟩]) ∧
    parseFasta ([] : List Char) = [] := by
  have hiff : concatTrims (splitNl t) = [] ↔ ∀ l ∈ splitNl t, trim l = [] := by
    rw [concatTrims, List.flatten_eq_nil_iff]
    constructor
    · intro h l hl
      exact h (trim l) (List.mem_map_of_mem trim hl)
    · intro h x hx
      rw [List.mem_map] at hx
      obtain ⟨l, hl, rfl⟩ := hx
      exact h l hl
  have h0 : parseFasta t = parseFastaLoop (splitNl t ++ []) [] [] := by
    rw [List.append_nil]
    rfl
  have hpf : parseFasta t =
      if concatTrims (splitNl t) = [] then []
      else [⟨trim [], trim (concatTrims (splitNl t))⟩] := by
    rw [h0, parseFastaLoop_no_header _ _ _ _ hnh, List.nil_append, parseFastaLoop]
  refine ⟨?_, ?_, by decide⟩
  · rw [hpf]
    by_cases hc : concatTrims (splitNl t) = []
    · rw [if_pos hc]
      exact ⟨fun _ => hiff.1 hc, fun _ => rfl⟩
    · rw [if_neg hc]
      constructor
      · intro habs
        exact absurd habs (by simp)
      · intro hall
        exact absurd (hiff.2 hall) hc
  · intro hne
    have hc : concatTrims (splitNl t) ≠ [] := fun h => hne (hiff.1 h)
    rw [hpf, if_neg hc,
      trim_eq_self (concatTrims (splitNl t))
        (by simpa using noWsEnds_concatTrims [] (splitNl t) noWsEnds_nil)]
    rfl

/-- C2 witness: a whitespace-only headerless input parses to zero records,
and a headerless input with sequence content parses to the single
empty-header record. -/
theorem claim2_no_header_amended_witness :
    parseFasta " \n ".toList = [] ∧
    parseFasta "AT\nCG".toList = [⟨[], "ATCG".toList⟩] := by
  constructor
  · exact (claim2_no_header_amended " \n ".toList (by decide)).1.mpr (by decide)
  · have h := (claim2_no_header_amended "AT\nCG".toList (by decide)).2.1 (by decide)
    rw [h]
    decide

/-- C3: no parsed record ever has an empty sequence, and a header line
immediately followed by another header line is silently dropped: the loop
result does not depend on the first of the two headers, as the concrete
input `">h1\n>h2\nAT"` illustrates. -/
theorem claim3_nonempty_sequences :
    (∀ (t : List Char) (r : FastaRecord), r ∈ parseFasta t → r.sequence ≠ []) ∧
    (∀ (l₁ l₂ : List Char) (rest : List (List Char)) (hdr : List Char),
      isHeaderLine l₁ = true → isHeaderLine l₂ = true →
      parseFastaLoop (l₁ :: l₂ :: rest) hdr [] =
        parseFastaLoop (l₂ :: rest) hdr []) ∧
    parseFasta ">h1\n>h2\nAT".toList = [⟨"h2".toList, "AT".toList⟩] := by
  refine ⟨?_, ?_, by decide⟩
  · intro t r hr
    exact parseFastaLoop_seq_ne_nil _ _ _ noWsEnds_nil r hr
  · intro l₁ l₂ rest hdr h1 h2
    have hL : parseFastaLoop (l₁ :: l₂ :: rest) hdr [] =
        parseFastaLoop (l₂ :: rest) (l₁.drop 1) [] := by
      rw [parseFastaLoop, if_pos h1, if_pos rfl, List.nil_append]
    have hL2 : parseFastaLoop (l₂ :: rest) (l₁.drop 1) [] =
        parseFastaLoop rest (l₂.drop 1) [] := by
      rw [parseFastaLoop, if_pos h2, if_pos rfl, List.nil_append]
    have hR : parseFastaLoop (l₂ :: rest) hdr [] =
        parseFastaLoop rest (l₂.drop 1) [] := by
      rw [parseFastaLoop, if_pos h2, if_pos rfl, List.nil_append]
    rw [hL, hL2, hR]

/-- C3 witness: the header-drop equation instantiated at two concrete
header lines. -/
theorem claim3_nonempty_sequences_witness :
    parseFastaLoop [">a".toList, ">b".toList] [] [] =
      parseFastaLoop [">b".toList] [] [] :=
  claim3_nonempty_sequences.2.1 ">a".toList ">b".toList [] []
    (by decide) (by decide)

/-- C4: a FASTA text made of header blocks, each header followed by at least
one sequence line with non-empty trim, parses to exactly one record per
block, in order, whose sequence is the separator-free concatenation of the
trimmed sequence lines; in particular `">h1\nAT\nCG\n>h2\nGG"` parses to
the two records h1 / ATCG and h2 / GG. -/
theorem claim4_parse_blocks (bs : List (List Char × List (List Char)))
    (hwf : ∀ b ∈ bs, isHeaderLine b.1 = true ∧ '\n' ∉ b.1 ∧
      (∀ l ∈ b.2, isHeaderLine l = false ∧ '\n' ∉ l) ∧ ∃ l ∈ b.2, trim l ≠ []) :
    parseFasta (joinNl (blockLines bs)) =
      bs.map (fun b => ⟨trim (b.1.drop 1), concatTrims b.2⟩) ∧
    (parseFasta (joinNl (blockLines bs))).length = bs.length ∧
    parseFasta ">h1\nAT\nCG\n>h2\nGG".toList =
      [⟨"h1".toList, "ATCG".toList⟩, ⟨"h2".toList, "GG".toList⟩] := by
  refine ⟨parseFasta_blocks bs hwf, ?_, by decide⟩
  rw [parseFasta_blocks bs hwf, List.length_map]

/-- C4 witness: the block characterization instantiated at the two-block
Scenario F input. -/
theorem claim4_parse_blocks_witness :
    parseFasta (joinNl (blockLines
      [(">h1".toList, ["AT".toList, "CG".toList]),
       (">h2".toList, ["GG".toList])])) =
      [⟨"h1".toList, "ATCG".toList⟩, ⟨"h2".toList, "GG".toList⟩] := by
  rw [(claim4_parse_blocks
    [(">h1".toList, ["AT".toList, "CG".toList]),
     (">h2".toList, ["GG".toList])] (by decide)).1]
  decide

/-- C5: normalization returns the uppercased input with every character
outside the DNA alphabet removed, flags `wasModified` exactly when the
cleaned length differs from the raw length, never flags an input whose
characters already uppercase into the alphabet (case folding alone is not
flagged), and maps `"atcgXX"` to cleaned `"ATCG"` with `wasModified`. -/
theorem claim5_normalize (raw : List Char) :
    (normalize raw).cleaned = (raw.map Char.toUpper).filter isDnaBase ∧
    ((normalize raw).wasModified = true ↔
      (normalize raw).cleaned.length ≠ raw.length) ∧
    ((∀ c ∈ raw, isDnaBase c.toUpper = true) →
      (normalize raw).wasModified = false) ∧
    normalize "atcgXX".toList = ⟨"ATCG".toList, true⟩ := by
  refine ⟨rfl, ?_, ?_, by decide⟩
  · show (raw.length != ((raw.map Char.toUpper).filter isDnaBase).length)
        = true ↔ _
    rw [bne_iff_ne]
    constructor
    · intro h h2
      exact h h2.symm
    · intro h h2
      exact h h2.symm
  · intro hall
    have hfe : (raw.map Char.toUpper).filter isDnaBase = raw.map Char.toUpper := by
      rw [List.filter_eq_self]
      intro c hc
      rw [List.mem_map] at hc
      obtain ⟨c', hc', rfl⟩ := hc
      exact hall c' hc'
    show (raw.length != ((raw.map Char.toUpper).filter isDnaBase).length) = false
    rw [hfe, List.length_map]
    simp

/-- C5 witness: a lowercase DNA string is cleaned without being flagged. -/
theorem claim5_normalize_witness :
    (normalize "atcg".toList).wasModified = false :=
  (claim5_normalize "atcg".toList).2.2.1 (by decide)

/-- C6: the annotator output is the threshold note (present exactly when
more than ten mutations were found, hence counted once then and zero times
otherwise) followed by the per-mutation notes in mutation order, each
mutation contributing one note per matching table entry in table order with
no deduplication; a mutation at position 50 from A to T produces exactly
the fixed note of the first table entry. -/
theorem claim6_annotate (muts : List Mutation) :
    annotate muts = (if muts.length > 10 then [largeCountNote] else []) ++
      (muts.map mutationNotes).flatten ∧
    (annotate muts).count largeCountNote =
      (if muts.length > 10 then 1 else 0) ∧
    annotate [⟨50, 'A', 'T'⟩] =
      ["🧬 Mutation at position 50 (A→T): associated with an increased risk of Condition X. (Illustrative)".toList] :=
  ⟨annotate_eq muts, count_largeCountNote muts, by decide⟩

/-- C7 counterexample: for the empty mutation list, the exported content is
empty and splitting it by newline yields one (empty) line, not zero, so the
split does not recover the original mutation count. -/
theorem claim7_export_counterexample :
    (splitNl (exportMutations [] "2026-10-12".toList).content).length ≠
      ([] : List Mutation).length := by
  decide

/-- C7 (amended): for every non-empty mutation list whose `from` and `to`
characters are not the newline character, the exported content is the
rendered `Position p: from → to` lines joined by newline, and splitting it
by newline recovers exactly those lines, hence the original count and
order; the filename is the date-stamped `dna_mutations_{date}.txt` and the
mime type is `text/plain` with UTF-8 charset. -/
theorem claim7_export_amended (muts : List Mutation) (dateStr : List Char)
    (hne : muts ≠ [])
    (hch : ∀ m ∈ muts, m.«from» ≠ '\n' ∧ m.«to» ≠ '\n') :
    splitNl (exportMutations muts dateStr).content = muts.map mutationLine ∧
    (splitNl (exportMutations muts dateStr).content).length = muts.length ∧
    (exportMutations muts dateStr).filename =
      "dna_mutations_".toList ++ dateStr ++ ".txt".toList ∧
    (exportMutations muts dateStr).mimeType =
      "text/plain;charset=utf-8".toList := by
  have hsplit : splitNl (joinNl (muts.map mutationLine)) = muts.map mutationLine := by
    apply splitNl_joinNl
    · simpa using hne
    · intro l hl
      rw [List.mem_map] at hl
      obtain ⟨m, hm, rfl⟩ := hl
      exact mutationLine_no_nl m (hch m hm).1 (hch m hm).2
  exact ⟨hsplit, by rw [show (exportMutations muts dateStr).content =
    joinNl (muts.map mutationLine) from rfl, hsplit, List.length_map], rfl, rfl⟩

/-- C7 witness: the round trip instantiated at a singleton mutation list. -/
theorem claim7_export_amended_witness :
    splitNl (exportMutations [⟨3, 'C', 'T'⟩] "2026-10-12".toList).content =
      [mutationLine ⟨3, 'C', 'T'⟩] :=
  (claim7_export_amended [⟨3, 'C', 'T'⟩] "2026-10-12".toList
    (by decide) (by decide)).1

/-- C8: normalization is idempotent on its cleaned output. -/
theorem claim8_normalize_idempotent (x : List Char) :
    (normalize (normalize x).cleaned).cleaned = (normalize x).cleaned := by
  show (((x.map Char.toUpper).filter isDnaBase).map Char.toUpper).filter isDnaBase
      = (x.map Char.toUpper).filter isDnaBase
  have hmem : ∀ c ∈ (x.map Char.toUpper).filter isDnaBase, isDnaBase c = true :=
    fun c hc => List.of_mem_filter hc
  have hmap : ((x.map Char.toUpper).filter isDnaBase).map Char.toUpper =
      (x.map Char.toUpper).filter isDnaBase := by
    conv_rhs => rw [← List.map_id ((x.map Char.toUpper).filter isDnaBase)]
    exact List.map_congr_left (fun c hc => isDnaBase_toUpper_eq c (hmem c hc))
  rw [hmap, List.filter_eq_self.2 hmem]

/-- C9: over equal-length DNA strings, diffing a string against itself
yields no mutations, and swapping the arguments yields the same number of
mutations with `from` and `to` exchanged per mutation. -/
theorem claim9_diff_symmetry (a b : List Char) (hlen : a.length = b.length)
    (_ha : ∀ c ∈ a, isDnaBase c = true) (_hb : ∀ c ∈ b, isDnaBase c = true) :
    (findMutationsScan a a).mutations = [] ∧
    (findMutationsScan b a).mutations.length =
      (findMutationsScan a b).mutations.length ∧
    (findMutationsScan b a).mutations =
      (findMutationsScan a b).mutations.map
        (fun m => ⟨m.position, m.«to», m.«from»⟩) := by
  refine ⟨diffAux_self a 0, ?_, diffAux_swap a b 0 hlen⟩
  show (diffAux 0 b a).mutations.length = (diffAux 0 a b).mutations.length
  rw [diffAux_swap a b 0 hlen, List.length_map]

/-- C9 witness: the symmetry instantiated at `"ATCG"` and `"ATTG"`. -/
theorem claim9_diff_symmetry_witness :
    (findMutationsScan "ATCG".toList "ATCG".toList).mutations = [] ∧
    (findMutationsScan "ATTG".toList "ATCG".toList).mutations =
      (findMutationsScan "ATCG".toList "ATTG".toList).mutations.map
        (fun m => ⟨m.position, m.«to», m.«from»⟩) := by
  have h := claim9_diff_symmetry "ATCG".toList "ATTG".toList
    (by decide) (by decide) (by decide)
  exact ⟨h.1, h.2.2⟩

/-- C10: over equal-length DNA strings, stripping first all occurrences of
the opening highlight markup and then all occurrences of the closing
markup from a highlighted rendering recovers exactly the corresponding
input, in order; and a character's block is wrapped in the markup exactly
when its 1-based position appears among the emitted mutation positions. -/
theorem claim10_highlight_roundtrip (a b : List Char)
    (hlen : a.length = b.length)
    (ha : ∀ c ∈ a, isDnaBase c = true) (hb : ∀ c ∈ b, isDnaBase c = true) :
    removeAll spanClose
        (removeAll spanOpen (findMutationsScan a b).highlightedDna1) = a ∧
    removeAll spanClose
        (removeAll spanOpen (findMutationsScan a b).highlightedDna2) = b ∧
    (findMutationsScan a b).highlightedDna1 =
      (((a.zip b).enum).map fun q =>
        if q.1 + 1 ∈ (findMutationsScan a b).mutations.map Mutation.position
        then spanOpen ++ q.2.1 :: spanClose else [q.2.1]).flatten ∧
    (findMutationsScan a b).highlightedDna2 =
      (((a.zip b).enum).map fun q =>
        if q.1 + 1 ∈ (findMutationsScan a b).mutations.map Mutation.position
        then spanOpen ++ q.2.2 :: spanClose else [q.2.2]).flatten := by
  have hfst : ∀ p ∈ a.zip b, Prod.fst p ≠ '<' := fun p hp =>
    isDnaBase_ne_lt p.1 (ha p.1 (List.of_mem_zip hp).1)
  have hsnd : ∀ p ∈ a.zip b, Prod.snd p ≠ '<' := fun p hp =>
    isDnaBase_ne_lt p.2 (hb p.2 (List.of_mem_zip hp).2)
  have h1 := diffAux_highlighted1 a b 0 hlen
  have h2 := diffAux_highlighted2 a b 0 hlen
  have hmut := diffAux_mutations a b 0 hlen
  have henum : (a.zip b).enum = (a.zip b).enumFrom 0 := rfl
  simp only [findMutationsScan]
  refine ⟨?_, ?_, ?_, ?_⟩
  · rw [h1, removeAll_spanOpen_flatten Prod.fst (a.zip b) hfst,
      removeAll_spanClose_flatten Prod.fst (a.zip b) hfst,
      List.map_fst_zip a b (le_of_eq hlen)]
  · rw [h2, removeAll_spanOpen_flatten Prod.snd (a.zip b) hsnd,
      removeAll_spanClose_flatten Prod.snd (a.zip b) hsnd,
      List.map_snd_zip a b (le_of_eq hlen.symm)]
  · rw [h1]
    simp only [hmut, henum]
    refine congrArg List.flatten ?_
    have hms : (a.zip b).map (fun p => highlightBlock p p.1) =
        ((a.zip b).enumFrom 0).map
          ((fun p => highlightBlock p p.1) ∘ Prod.snd) := by
      rw [← List.map_map, show ((a.zip b).enumFrom 0).map Prod.snd = a.zip b
        from List.enum_map_snd (a.zip b)]
    rw [hms]
    apply List.map_congr_left
    intro q hq
    obtain ⟨j, x, y⟩ := q
    have hiff := mem_positions_iff (a.zip b) 0 j x y hq
    show highlightBlock (x, y) x = _
    rw [highlightBlock]
    exact if_congr (Iff.symm hiff) rfl rfl
  · rw [h2]
    simp only [hmut, henum]
    refine congrArg List.flatten ?_
    have hms : (a.zip b).map (fun p => highlightBlock p p.2) =
        ((a.zip b).enumFrom 0).map
          ((fun p => highlightBlock p p.2) ∘ Prod.snd) := by
      rw [← List.map_map, show ((a.zip b).enumFrom 0).map Prod.snd = a.zip b
        from List.enum_map_snd (a.zip b)]
    rw [hms]
    apply List.map_congr_left
    intro q hq
    obtain ⟨j, x, y⟩ := q
    have hiff := mem_positions_iff (a.zip b) 0 j x y hq
    show highlightBlock (x, y) y = _
    rw [highlightBlock]
    exact if_congr (Iff.symm hiff) rfl rfl

/-- C10 witness: the markup round trip instantiated at `"ATCG"` against
`"ATTG"`. -/
theorem claim10_highlight_roundtrip_witness :
    removeAll spanClose
        (removeAll spanOpen
          (findMutationsScan "ATCG".toList "ATTG".toList).highlightedDna1) =
      "ATCG".toList :=
  (claim10_highlight_roundtrip "ATCG".toList "ATTG".toList
    (by decide) (by decide) (by decide)).1

end DnaScript
